import Mathlib

/-!
Shallow embedding of the v2raytun-routing geosite matcher
(`matchRule`, `computeSizes`, `findMatchesForDomain`, `parseSelector`,
`cleanHost` and the ranking comparator from `main`).

Go strings are modelled as `List Char`; Go maps as association lists
(for the regex cache and the selector map) or as total functions with
default value 0 (for the size maps, matching Go's zero-value lookup).
The regex engine is abstracted as a parameter
`compile : Str → Option (Str → Bool)`: a compiled pattern is its
matching function, and a compile failure is `none`.
-/

abbrev Str := List Char

/-- Compiled regular expression, abstracted as its matching function. -/
abbrev Pat := Str → Bool

/-- Model of Go `map[string]*regexp.Regexp`: the value `none` models the
`nil` sentinel stored after a failed compile. -/
abbrev Cache := List (Str × Option Pat)

/-- Association-list lookup (first binding wins), modelling Go map access. -/
def alookup {α : Type} : List (Str × α) → Str → Option α
  | [], _ => none
  | (k, v) :: rest, k2 => if k2 = k then some v else alookup rest k2

/-- Model of Go `unicode.IsSpace` on the characters relevant here. -/
def isGoSpace (c : Char) : Bool :=
  c = ' ' || c = '\t' || c = '\n' || c = '\x0b' || c = '\x0c' || c = '\r'

/-- Model of `strings.TrimSpace`. -/
def goTrimSpace (s : Str) : Str :=
  ((s.dropWhile isGoSpace).reverse.dropWhile isGoSpace).reverse

/-- Model of `strings.ToLower` (ASCII case mapping). -/
def goToLower (s : Str) : Str := s.map Char.toLower

/-- `goHasPref s p` models `strings.HasPrefix(s, p)`. -/
def goHasPref : Str → Str → Bool
  | _, [] => true
  | [], _ :: _ => false
  | c :: cs, p :: ps => decide (c = p) && goHasPref cs ps

/-- `goHasSuffix s p` models `strings.HasSuffix(s, p)`. -/
def goHasSuffix (s p : Str) : Bool :=
  goHasPref s.reverse p.reverse

/-- Model of `strings.TrimSuffix(s, ".")`: strips at most one trailing dot. -/
def goTrimSuffixDot (s : Str) : Str :=
  if goHasSuffix s ['.'] then s.dropLast else s

/-- `goContains s sub` models `strings.Contains(s, sub)`. -/
def goContains : Str → Str → Bool
  | [], sub => goHasPref [] sub
  | c :: cs, sub => goHasPref (c :: cs) sub || goContains cs sub

/-- Model of `strings.TrimPrefix`. -/
def goTrimPre (pre s : Str) : Str :=
  if goHasPref s pre then s.drop pre.length else s

/- ## Data model: the decoded geosite catalog -/

/-- One attribute of a rule (Go `router.Domain_Attribute`); only the key
is consulted by this program. -/
structure DomainAttr where
  key : Str
deriving DecidableEq

/-- One rule (Go `router.Domain`): the numeric match-type code, the value
string, and the attribute list. -/
structure Domain where
  dtype : Int
  value : Str
  attrs : List DomainAttr
deriving DecidableEq

/-- One category (Go `router.GeoSite`): tag plus its rules. -/
structure GeoSite where
  countryCode : Str
  domain : List Domain
deriving DecidableEq

/-- The decoded catalog (Go `router.GeoSiteList`). -/
abbrev GeoSiteList := List GeoSite

/- ## Host normalization: `cleanHost` -/

/-- Embedding of `cleanHost` (part_000 lines 175-185):
lowercase the trimmed host, strip one trailing dot, fail on empty result
or on a result containing the substring `" "`. -/
def cleanHost (host : Str) : Option Str :=
  let h := goTrimSuffixDot (goToLower (goTrimSpace host))
  if h = [] then none
  else if goContains h [' '] then none
  else some h

/- ## Catalog Index: `computeSizes` -/

/-- Bump the per-tag per-key attribute counter (Go `attr[tag][k]++`). -/
def bumpAttr (f : Str → Str → Nat) (t k : Str) : Str → Str → Nat :=
  fun t2 k2 => if t2 = t ∧ k2 = k then f t k + 1 else f t2 k2

/-- Inner loop of `computeSizes` over one rule's attributes. -/
def attrLoop (tag : Str) : List DomainAttr → (Str → Str → Nat) → (Str → Str → Nat)
  | [], f => f
  | a :: rest, f => attrLoop tag rest (if a.key = [] then f else bumpAttr f tag a.key)

/-- Loop of `computeSizes` over one category's rules. -/
def siteAttrs (tag : Str) : List Domain → (Str → Str → Nat) → (Str → Str → Nat)
  | [], f => f
  | d :: rest, f => siteAttrs tag rest (attrLoop tag d.attrs f)

/-- Outer loop of `computeSizes` over the catalog. -/
def sizesLoop : GeoSiteList → (Str → Nat) × (Str → Str → Nat) → (Str → Nat) × (Str → Str → Nat)
  | [], acc => acc
  | s :: rest, (b, a) =>
      sizesLoop rest
        (fun t => if t = s.countryCode then s.domain.length else b t,
         siteAttrs s.countryCode s.domain a)

/-- Embedding of `computeSizes` (part_000 lines 187-211). Absent keys read
as 0, matching Go map zero values. -/
def computeSizes (geo : GeoSiteList) : (Str → Nat) × (Str → Str → Nat) :=
  sizesLoop geo (fun _ => 0, fun _ _ => 0)

/- ## Rule Matcher: `matchRule` -/

/-- Strategy name `"plain"`. -/
def strPlain : Str := "plain".toList
/-- Strategy name `"domain"`. -/
def strDomain : Str := "domain".toList
/-- Strategy name `"full"`. -/
def strFull : Str := "full".toList
/-- Strategy name `"regex"`. -/
def strRegex : Str := "regex".toList
/-- Strategy name `"unknown"`. -/
def strUnknown : Str := "unknown".toList

/-- The normalization applied to a rule value at the top of `matchRule`
(line 299): `strings.ToLower(strings.TrimSuffix(strings.TrimSpace(v), "."))`. -/
def normVal (v : Str) : Str :=
  goToLower (goTrimSuffixDot (goTrimSpace v))

/-- Run a cached pattern (`nil` sentinel never matches). -/
def matchesOpt (o : Option Pat) (h : Str) : Bool :=
  match o with
  | none => false
  | some p => p h

/-- Embedding of `matchRule` (part_000 lines 298-348), threading the
regex cache. `compile` abstracts `regexp.Compile`. -/
def matchRule (compile : Str → Option Pat) (host : Str) (d : Domain) (cache : Cache) :
    Bool × Str × Cache :=
  let val := normVal d.value
  if val = [] then (false, [], cache)
  else if d.dtype = 0 then (goContains host val, strPlain, cache)
  else if d.dtype = 2 then
    (decide (host = val) || goHasSuffix host ('.' :: val), strDomain, cache)
  else if d.dtype = 3 then (decide (host = val), strFull, cache)
  else if d.dtype = 1 then
    match alookup cache val with
    | some re => (matchesOpt re host, strRegex, cache)
    | none =>
      match compile val with
      | none => (false, strRegex, cache ++ [(val, none)])
      | some r => (r host, strRegex, cache ++ [(val, some r)])
  else (decide (host = val), strUnknown, cache)

/-- Cache-free functional core of `matchRule`: same verdict and strategy
name, computed directly from `compile`. Used to relate cache-threaded runs. -/
def matchRuleP (compile : Str → Option Pat) (host : Str) (d : Domain) : Bool × Str :=
  let val := normVal d.value
  if val = [] then (false, [])
  else if d.dtype = 0 then (goContains host val, strPlain)
  else if d.dtype = 2 then
    (decide (host = val) || goHasSuffix host ('.' :: val), strDomain)
  else if d.dtype = 3 then (decide (host = val), strFull)
  else if d.dtype = 1 then (matchesOpt (compile val) host, strRegex)
  else (decide (host = val), strUnknown)

/-- A cache is coherent when every stored entry is exactly what `compile`
produces for its key — the invariant maintained by `matchRule`, which only
ever stores `compile val` under `val`. -/
def Coherent (compile : Str → Option Pat) (c : Cache) : Prop :=
  ∀ k e, alookup c k = some e → e = compile k

/- ## Selectors -/

/-- The literal selector prefix `"geosite:"`. -/
def geositePre : Str := "geosite:".toList

/-- Base selector `"geosite:" + tag` (line 238). -/
def baseSel (tag : Str) : Str := geositePre ++ tag

/-- Attribute selector `"geosite:" + tag + "@" + key` (line 249). -/
def attrSel (tag : Str) (k : Str) : Str := geositePre ++ tag ++ '@' :: k

/-- Embedding of `parseSelector` (part_000 lines 280-288): split at the
first `'@'` after stripping the prefix (`strings.SplitN(sel, "@", 2)`). -/
def splitFirstAt (c : Char) : Str → Str × Option Str
  | [] => ([], none)
  | x :: xs =>
      if x = c then ([], some xs)
      else
        let r := splitFirstAt c xs
        (x :: r.1, r.2)

/-- Embedding of `parseSelector` (part_000 lines 280-288). -/
def parseSelector (sel : Str) : Str × Str :=
  let s := goTrimPre geositePre sel
  match splitFirstAt '@' s with
  | (t, none) => (t, [])
  | (t, some a) => (t, a)

/- ## Category Scanner: `findMatchesForDomain` -/

/-- The justification recorded for a selector: matched rule type and the
raw rule value (the `why` struct, lines 220-223). -/
structure Why where
  ruleType : Str
  ruleVal : Str
deriving DecidableEq

instance : Inhabited Why := ⟨⟨[], []⟩⟩

/-- Insert-if-absent into the selector map (`if _, exists := m[sel]; !exists`). -/
def insertIfAbsent (m : List (Str × Why)) (k : Str) (v : Why) : List (Str × Why) :=
  match alookup m k with
  | some _ => m
  | none => m ++ [(k, v)]

/-- The attribute-selector loop of the scanner (lines 244-253): for each
non-empty attribute key, insert-if-absent the attribute selector. -/
def addAttrs (tag : Str) (w : Why) : List DomainAttr → List (Str × Why) → List (Str × Why)
  | [], m => m
  | a :: rest, m =>
      addAttrs tag w rest (if a.key = [] then m else insertIfAbsent m (attrSel tag a.key) w)

/-- Inner scanner loop over one category's rules (lines 231-254),
threading the selector map and the regex cache. -/
def scanRules (compile : Str → Option Pat) (host tag : Str) :
    List Domain → List (Str × Why) × Cache → List (Str × Why) × Cache
  | [], mc => mc
  | d :: rest, (m, c) =>
      let r := matchRule compile host d c
      let m2 :=
        if r.1 then
          addAttrs tag ⟨r.2.1, d.value⟩ d.attrs
            (insertIfAbsent m (baseSel tag) ⟨r.2.1, d.value⟩)
        else m
      scanRules compile host tag rest (m2, r.2.2)

/-- Outer scanner loop over the catalog (lines 228-255). -/
def scanSites (compile : Str → Option Pat) (host : Str) :
    GeoSiteList → List (Str × Why) × Cache → List (Str × Why) × Cache
  | [], mc => mc
  | s :: rest, mc => scanSites compile host rest (scanRules compile host s.countryCode s.domain mc)

/-- One reported match (the `Match` struct, lines 19-26). -/
structure Match where
  selector : Str
  tag : Str
  attr : Str
  groupSize : Nat
  why : Str
  whyRuleVal : Str
deriving DecidableEq

/-- The group-size computation of the output loop (lines 260-266): base
size for a base selector, attribute size otherwise, with Go's zero-value
semantics for absent keys. -/
def selectorSize (baseSize : Str → Nat) (attrSize : Str → Str → Nat) (sel : Str) : Nat :=
  let p := parseSelector sel
  if p.2 = [] then baseSize p.1 else attrSize p.1 p.2

/-- Build one `Match` from a selector-map entry (lines 267-274). -/
def mkMatch (baseSize : Str → Nat) (attrSize : Str → Str → Nat) (e : Str × Why) : Match :=
  ⟨e.1, (parseSelector e.1).1, (parseSelector e.1).2,
   selectorSize baseSize attrSize e.1, e.2.ruleType, e.2.ruleVal⟩

/-- Embedding of `findMatchesForDomain` (part_000 lines 213-278), also
returning the final regex cache. -/
def findMatchesForDomain (compile : Str → Option Pat) (host : Str) (geo : GeoSiteList)
    (baseSize : Str → Nat) (attrSize : Str → Str → Nat) (cache : Cache) :
    List Match × Cache :=
  let swc := scanSites compile host geo ([], cache)
  (swc.1.map (mkMatch baseSize attrSize), swc.2)

/- ## Basic lemmas on the string primitives and lookups -/

theorem goHasPref_iff (p : Str) : ∀ s : Str, goHasPref s p = true ↔ ∃ t, s = p ++ t := by
  induction p with
  | nil =>
      intro s
      simp [goHasPref]
  | cons q ps ih =>
      intro s
      cases s with
      | nil => simp [goHasPref]
      | cons c cs =>
          simp only [goHasPref, Bool.and_eq_true, decide_eq_true_iff, ih]
          constructor
          · rintro ⟨rfl, t, rfl⟩
            exact ⟨t, rfl⟩
          · rintro ⟨t, ht⟩
            injection ht with h1 h2
            exact ⟨h1, t, h2⟩

theorem goHasSuffix_iff (s p : Str) : goHasSuffix s p = true ↔ ∃ t, s = t ++ p := by
  unfold goHasSuffix
  rw [goHasPref_iff]
  constructor
  · rintro ⟨t, ht⟩
    refine ⟨t.reverse, ?_⟩
    have h2 := congrArg List.reverse ht
    simpa using h2
  · rintro ⟨t, rfl⟩
    exact ⟨t.reverse, by simp⟩

theorem alookup_append {α : Type} (l1 l2 : List (Str × α)) (k : Str) :
    alookup (l1 ++ l2) k =
      match alookup l1 k with
      | some v => some v
      | none => alookup l2 k := by
  induction l1 with
  | nil => simp [alookup]
  | cons p rest ih =>
      obtain ⟨k1, v1⟩ := p
      by_cases hk : k = k1
      · simp [alookup, hk]
      · simp [alookup, hk, ih]

/- ## `matchRule` versus its cache-free core -/

theorem matchRule_snd (compile : Str → Option Pat) (host : Str) (d : Domain) (c : Cache) :
    (matchRule compile host d c).2.1 = (matchRuleP compile host d).2 := by
  by_cases h0 : normVal d.value = []
  · simp [matchRule, matchRuleP, h0]
  · by_cases h1 : d.dtype = 0
    · simp [matchRule, matchRuleP, h0, h1]
    · by_cases h2 : d.dtype = 2
      · simp [matchRule, matchRuleP, h0, h1, h2]
      · by_cases h3 : d.dtype = 3
        · simp [matchRule, matchRuleP, h0, h1, h2, h3]
        · by_cases h4 : d.dtype = 1
          · cases halk : alookup c (normVal d.value) with
            | some re => simp [matchRule, matchRuleP, h0, h1, h2, h3, h4, halk]
            | none =>
                cases hcp : compile (normVal d.value) <;>
                  simp [matchRule, matchRuleP, h0, h1, h2, h3, h4, halk, hcp]
          · simp [matchRule, matchRuleP, h0, h1, h2, h3, h4]

theorem matchRule_fst (compile : Str → Option Pat) (host : Str) (d : Domain) (c : Cache)
    (hc : Coherent compile c) :
    (matchRule compile host d c).1 = (matchRuleP compile host d).1 := by
  by_cases h0 : normVal d.value = []
  · simp [matchRule, matchRuleP, h0]
  · by_cases h1 : d.dtype = 0
    · simp [matchRule, matchRuleP, h0, h1]
    · by_cases h2 : d.dtype = 2
      · simp [matchRule, matchRuleP, h0, h1, h2]
      · by_cases h3 : d.dtype = 3
        · simp [matchRule, matchRuleP, h0, h1, h2, h3]
        · by_cases h4 : d.dtype = 1
          · cases halk : alookup c (normVal d.value) with
            | some re =>
                have he := hc _ _ halk
                simp [matchRule, matchRuleP, h0, h1, h2, h3, h4, halk, he]
            | none =>
                cases hcp : compile (normVal d.value) <;>
                  simp [matchRule, matchRuleP, matchesOpt, h0, h1, h2, h3, h4, halk, hcp]
          · simp [matchRule, matchRuleP, h0, h1, h2, h3, h4]

theorem matchRule_cache_mono (compile : Str → Option Pat) (host : Str) (d : Domain)
    (c : Cache) (k : Str) (e : Option Pat) (h : alookup c k = some e) :
    alookup (matchRule compile host d c).2.2 k = some e := by
  by_cases h0 : normVal d.value = []
  · simpa [matchRule, h0] using h
  · by_cases h1 : d.dtype = 0
    · simpa [matchRule, h0, h1] using h
    · by_cases h2 : d.dtype = 2
      · simpa [matchRule, h0, h1, h2] using h
      · by_cases h3 : d.dtype = 3
        · simpa [matchRule, h0, h1, h2, h3] using h
        · by_cases h4 : d.dtype = 1
          · cases halk : alookup c (normVal d.value) with
            | some re => simpa [matchRule, h0, h1, h2, h3, h4, halk] using h
            | none =>
                cases hcp : compile (normVal d.value) <;>
                  simp [matchRule, h0, h1, h2, h3, h4, halk, hcp, alookup_append, h]
          · simpa [matchRule, h0, h1, h2, h3, h4] using h

/-- Appending the entry `compile v` under key `v` preserves coherence. -/
theorem coherent_push (compile : Str → Option Pat) (c : Cache) (v : Str)
    (hc : Coherent compile c) : Coherent compile (c ++ [(v, compile v)]) := by
  intro k e hke
  rw [alookup_append] at hke
  cases hkc : alookup c k with
  | some w =>
      rw [hkc] at hke
      simp at hke
      subst hke
      exact hc k _ hkc
  | none =>
      rw [hkc] at hke
      by_cases hkv : k = v
      · subst hkv
        simp [alookup] at hke
        subst hke
        rfl
      · simp [alookup, hkv] at hke

theorem matchRule_coh (compile : Str → Option Pat) (host : Str) (d : Domain) (c : Cache)
    (hc : Coherent compile c) :
    Coherent compile (matchRule compile host d c).2.2 := by
  by_cases h0 : normVal d.value = []
  · simpa [matchRule, h0] using hc
  · by_cases h1 : d.dtype = 0
    · simpa [matchRule, h0, h1] using hc
    · by_cases h2 : d.dtype = 2
      · simpa [matchRule, h0, h1, h2] using hc
      · by_cases h3 : d.dtype = 3
        · simpa [matchRule, h0, h1, h2, h3] using hc
        · by_cases h4 : d.dtype = 1
          · cases halk : alookup c (normVal d.value) with
            | some re => simpa [matchRule, h0, h1, h2, h3, h4, halk] using hc
            | none =>
                cases hcp : compile (normVal d.value) with
                | none =>
                    have hp := coherent_push compile c (normVal d.value) hc
                    rw [hcp] at hp
                    simpa [matchRule, h0, h1, h2, h3, h4, halk, hcp] using hp
                | some r =>
                    have hp := coherent_push compile c (normVal d.value) hc
                    rw [hcp] at hp
                    simpa [matchRule, h0, h1, h2, h3, h4, halk, hcp] using hp
          · simpa [matchRule, h0, h1, h2, h3, h4] using hc

/- ## `parseSelector` lemmas -/

theorem goHasPref_of_append (pre x : Str) : goHasPref (pre ++ x) pre = true :=
  (goHasPref_iff pre (pre ++ x)).mpr ⟨x, rfl⟩

theorem goTrimPre_append (pre x : Str) : goTrimPre pre (pre ++ x) = x := by
  unfold goTrimPre
  rw [goHasPref_of_append]
  simp

theorem splitFirstAt_not_mem (c : Char) (s : Str) (h : c ∉ s) :
    splitFirstAt c s = (s, none) := by
  induction s with
  | nil => rfl
  | cons x xs ih =>
      have hx : ¬ x = c := by
        rintro rfl
        exact h (List.mem_cons_self _ _)
      simp [splitFirstAt, hx, ih (fun hm => h (List.mem_cons_of_mem _ hm))]

theorem splitFirstAt_first (c : Char) (s t : Str) (h : c ∉ s) :
    splitFirstAt c (s ++ c :: t) = (s, some t) := by
  induction s with
  | nil => simp [splitFirstAt]
  | cons x xs ih =>
      have hx : ¬ x = c := by
        rintro rfl
        exact h (List.mem_cons_self _ _)
      simp [splitFirstAt, hx, ih (fun hm => h (List.mem_cons_of_mem _ hm))]

theorem parseSelector_base (tag : Str) (h : '@' ∉ tag) :
    parseSelector (baseSel tag) = (tag, []) := by
  simp only [parseSelector, baseSel, goTrimPre_append, splitFirstAt_not_mem _ _ h]

theorem parseSelector_attr (tag k : Str) (h : '@' ∉ tag) :
    parseSelector (attrSel tag k) = (tag, k) := by
  have h1 : goTrimPre geositePre (attrSel tag k) = tag ++ '@' :: k := by
    unfold attrSel
    rw [List.append_assoc]
    exact goTrimPre_append _ _
  simp only [parseSelector, h1, splitFirstAt_first _ _ _ h]

/- ## Cache monotonicity through the scanner -/

theorem scanRules_cache_mono (compile : Str → Option Pat) (host tag : Str) :
    ∀ (rules : List Domain) (m : List (Str × Why)) (c : Cache) (k : Str) (e : Option Pat),
      alookup c k = some e →
      alookup (scanRules compile host tag rules (m, c)).2 k = some e := by
  intro rules
  induction rules with
  | nil => intro m c k e h; exact h
  | cons d rest ih =>
      intro m c k e h
      simp only [scanRules]
      exact ih _ _ k e (matchRule_cache_mono compile host d c k e h)

theorem scanSites_cache_mono (compile : Str → Option Pat) (host : Str) :
    ∀ (geo : GeoSiteList) (m : List (Str × Why)) (c : Cache) (k : Str) (e : Option Pat),
      alookup c k = some e →
      alookup (scanSites compile host geo (m, c)).2 k = some e := by
  intro geo
  induction geo with
  | nil => intro m c k e h; exact h
  | cons s rest ih =>
      intro m c k e h
      simp only [scanSites]
      have h2 := scanRules_cache_mono compile host s.countryCode s.domain m c k e h
      rcases hsc : scanRules compile host s.countryCode s.domain (m, c) with ⟨m2, c2⟩
      rw [hsc] at h2
      exact ih m2 c2 k e h2

/- ## Shared concrete material for witnesses -/

/-- A regex engine on which every pattern fails to compile. -/
def compile0 : Str → Option Pat := fun _ => none

/- ## C1 -/

/-- C1: for every host and every rule of match type 2 (domain-suffix) whose
normalized value `V` is non-empty, `matchRule` matches iff the host equals
`V` or ends with `"." ++ V`; in particular `"xexample.com"` does not match a
domain rule with value `"example.com"` while `"sub.example.com"` does. -/
theorem c1_domain_suffix (compile : Str → Option Pat) (host : Str) (d : Domain) (c : Cache)
    (ht : d.dtype = 2) (hv : normVal d.value ≠ []) :
    ((matchRule compile host d c).1 = true ↔
      host = normVal d.value ∨ ∃ pre, host = pre ++ '.' :: normVal d.value) ∧
    (matchRule compile (r"xexample.com".toList) ⟨2, r"example.com".toList, []⟩ c).1 = false ∧
    (matchRule compile (r"sub.example.com".toList) ⟨2, r"example.com".toList, []⟩ c).1 = true := by
  refine ⟨?_, by rfl, by rfl⟩
  have hm : (matchRule compile host d c).1 =
      (decide (host = normVal d.value) || goHasSuffix host ('.' :: normVal d.value)) := by
    simp [matchRule, ht, hv]
  rw [hm, Bool.or_eq_true, decide_eq_true_iff, goHasSuffix_iff]

/-- Witness for C1: concrete domain rule `"example.com"` against host
`"sub.example.com"`. -/
theorem c1_domain_suffix_witness :
    ((⟨2, r"example.com".toList, []⟩ : Domain).dtype = 2 ∧
      normVal (⟨2, r"example.com".toList, []⟩ : Domain).value ≠ []) ∧
    ((matchRule compile0 (r"sub.example.com".toList) ⟨2, r"example.com".toList, []⟩ []).1 = true ↔
      r"sub.example.com".toList = normVal (⟨2, r"example.com".toList, []⟩ : Domain).value ∨
      ∃ pre, r"sub.example.com".toList =
        pre ++ '.' :: normVal (⟨2, r"example.com".toList, []⟩ : Domain).value) :=
  ⟨⟨by decide, by decide⟩,
    (c1_domain_suffix compile0 (r"sub.example.com".toList) ⟨2, r"example.com".toList, []⟩ []
      (by decide) (by decide)).1⟩

/- ## C10 -/

/-- C10: selector construction and parsing round-trip — for a tag without
`'@'`, `parseSelector (baseSel tag)` is `(tag, "")`, and for a non-empty
attribute key, `parseSelector (attrSel tag key)` is `(tag, key)`. -/
theorem c10_selector_roundtrip (tag k : Str) (h : '@' ∉ tag) :
    parseSelector (baseSel tag) = (tag, []) ∧
    (k ≠ [] → parseSelector (attrSel tag k) = (tag, k)) :=
  ⟨parseSelector_base tag h, fun _ => parseSelector_attr tag k h⟩

/-- Witness for C10 at tag `"cn"` and key `"ext"`. -/
theorem c10_selector_roundtrip_witness :
    ('@' ∉ r"cn".toList ∧ (r"ext".toList : Str) ≠ []) ∧
    (parseSelector (baseSel (r"cn".toList)) = (r"cn".toList, []) ∧
      (r"ext".toList ≠ [] →
        parseSelector (attrSel (r"cn".toList) (r"ext".toList)) = (r"cn".toList, r"ext".toList))) :=
  ⟨⟨by decide, by decide⟩, c10_selector_roundtrip (r"cn".toList) (r"ext".toList) (by decide)⟩

/- ## C2 -/

/-- The count the spec asserts for attribute sizes: the number of rules, in
categories with the given tag, that carry the key at least once. -/
def rulesWithKey (geo : GeoSiteList) (tag k : Str) : Nat :=
  ((geo.filter (fun s => decide (s.countryCode = tag))).map
    (fun s => (s.domain.filter (fun d => d.attrs.any (fun a => decide (a.key = k)))).length)).sum

/-- The C2 failing input: one category `"cn"` with a single rule that
repeats the attribute key `"cn"` twice. -/
def geoC2 : GeoSiteList :=
  [⟨r"cn".toList, [⟨2, r"weibo.com".toList, [⟨r"cn".toList⟩, ⟨r"cn".toList⟩]⟩]⟩]

/-- C2: on a rule repeating the same attribute key, `computeSizes` counts
attribute occurrences (2), while only 1 rule carries the key — the code
contradicts its own comment "count of rules within tag that have attr". -/
theorem c2_attr_size_counts_occurrences :
    (computeSizes geoC2).2 (r"cn".toList) (r"cn".toList) = 2 ∧
    rulesWithKey geoC2 (r"cn".toList) (r"cn".toList) = 1 := by decide

/- ## C3 -/

/-- C3: for a regex rule whose normalized value fails to compile, the first
`matchRule` call stores the never-matches sentinel (`none`) under the
normalized value and reports no match; with the sentinel cached, every later
call reports no match, leaves the cache unchanged, and any cache-hit call is
independent of the compiler (no recompilation); existing cache entries are
never overwritten or evicted, by `matchRule` or by a whole scan. -/
theorem c3_regex_failure_cached (compile : Str → Option Pat) (host : Str) (d : Domain)
    (c : Cache) (k : Str) (geo : GeoSiteList) (bs : Str → Nat) (att : Str → Str → Nat)
    (ht : d.dtype = 1) :
    (normVal d.value ≠ [] → compile (normVal d.value) = none →
      alookup c (normVal d.value) = none →
      matchRule compile host d c = (false, strRegex, c ++ [(normVal d.value, none)])) ∧
    (normVal d.value ≠ [] → alookup c (normVal d.value) = some none →
      matchRule compile host d c = (false, strRegex, c)) ∧
    (∀ e, alookup c (normVal d.value) = some e →
      ∀ compile2 : Str → Option Pat, matchRule compile2 host d c = matchRule compile host d c) ∧
    (∀ e, alookup c k = some e → alookup (matchRule compile host d c).2.2 k = some e) ∧
    (∀ e, alookup c k = some e →
      alookup (findMatchesForDomain compile host geo bs att c).2 k = some e) := by
  refine ⟨?_, ?_, ?_, ?_, ?_⟩
  · intro hv hcp hl
    simp [matchRule, ht, hv, hl, hcp]
  · intro hv hl
    simp [matchRule, matchesOpt, ht, hv, hl]
  · intro e hl compile2
    by_cases hv : normVal d.value = []
    · simp [matchRule, hv]
    · simp [matchRule, ht, hv, hl]
  · intro e hl
    exact matchRule_cache_mono compile host d c k e hl
  · intro e hl
    simp only [findMatchesForDomain]
    exact scanSites_cache_mono compile host geo [] c k e hl

/-- Witness for C3: compiling `"["` fails under `compile0`; the first call
on an empty cache stores the sentinel and reports no match. -/
theorem c3_regex_failure_cached_witness :
    ((⟨1, r"[".toList, []⟩ : Domain).dtype = 1 ∧
      normVal (⟨1, r"[".toList, []⟩ : Domain).value ≠ [] ∧
      compile0 (normVal (⟨1, r"[".toList, []⟩ : Domain).value) = none ∧
      alookup ([] : Cache) (normVal (⟨1, r"[".toList, []⟩ : Domain).value) = none) ∧
    matchRule compile0 (r"example.com".toList) ⟨1, r"[".toList, []⟩ [] =
      (false, strRegex, [(normVal (⟨1, r"[".toList, []⟩ : Domain).value, none)]) :=
  ⟨⟨by decide, by decide, rfl, rfl⟩,
    (c3_regex_failure_cached compile0 (r"example.com".toList) ⟨1, r"[".toList, []⟩ [] []
        [] (fun _ => 0) (fun _ _ => 0) (by decide)).1 (by decide) rfl rfl⟩

/- ## C7 -/

/-- C7 counterexample: a rule whose value is empty after normalization makes
`matchRule` return the strategy name `""`, which is none of the five names
the claim allows. -/
theorem c7_counterexample :
    ¬ ((matchRule compile0 (r"example.com".toList) ⟨3, [], []⟩ []).2.1 ∈
        [strPlain, strDomain, strFull, strRegex, strUnknown]) := by decide

/-- C7 amended: `matchRule` returns a verdict and a strategy name; when the
normalized value (whitespace-trimmed, one trailing dot stripped, lowercased)
is non-empty the strategy name is one of the five; when it is empty the rule
matches no host under any match type and the strategy name is `""`; and the
comparison uses the normalized value (shown here for match type 3, `full`). -/
theorem c7_verdict_strategy (compile : Str → Option Pat) (host : Str) (d : Domain) (c : Cache) :
    (normVal d.value = [] →
      (matchRule compile host d c).1 = false ∧ (matchRule compile host d c).2.1 = []) ∧
    (normVal d.value ≠ [] →
      (matchRule compile host d c).2.1 ∈ [strPlain, strDomain, strFull, strRegex, strUnknown]) ∧
    (d.dtype = 3 →
      ((matchRule compile host d c).1 = true ↔ host = normVal d.value ∧ normVal d.value ≠ [])) := by
  refine ⟨?_, ?_, ?_⟩
  · intro hv
    constructor <;> simp [matchRule, hv]
  · intro hv
    by_cases h1 : d.dtype = 0
    · simp [matchRule, hv, h1]
    · by_cases h2 : d.dtype = 2
      · simp [matchRule, hv, h1, h2]
      · by_cases h3 : d.dtype = 3
        · simp [matchRule, hv, h1, h2, h3]
        · by_cases h4 : d.dtype = 1
          · cases halk : alookup c (normVal d.value) with
            | some re => simp [matchRule, hv, h1, h2, h3, h4, halk]
            | none =>
                cases hcp : compile (normVal d.value) <;>
                  simp [matchRule, hv, h1, h2, h3, h4, halk, hcp]
          · simp [matchRule, hv, h1, h2, h3, h4]
  · intro h3
    by_cases hv : normVal d.value = []
    · simp [matchRule, hv]
    · simp [matchRule, hv, h3]

/-- Witness for C7 on a rule with value `"."` (empty after normalization)
and on a full-match rule. -/
theorem c7_verdict_strategy_witness :
    (normVal (⟨0, r".".toList, []⟩ : Domain).value = [] ∧
      (⟨3, r"Example.COM.".toList, []⟩ : Domain).dtype = 3) ∧
    ((matchRule compile0 (r"a.b".toList) ⟨0, r".".toList, []⟩ []).1 = false ∧
      (matchRule compile0 (r"a.b".toList) ⟨0, r".".toList, []⟩ []).2.1 = []) ∧
    ((matchRule compile0 (r"example.com".toList) ⟨3, r"Example.COM.".toList, []⟩ []).1 = true ↔
      r"example.com".toList = normVal (⟨3, r"Example.COM.".toList, []⟩ : Domain).value ∧
      normVal (⟨3, r"Example.COM.".toList, []⟩ : Domain).value ≠ []) :=
  ⟨⟨by decide, by decide⟩,
    (c7_verdict_strategy compile0 (r"a.b".toList) ⟨0, r".".toList, []⟩ []).1 (by decide),
    (c7_verdict_strategy compile0 (r"example.com".toList)
      ⟨3, r"Example.COM.".toList, []⟩ []).2.2 (by decide)⟩

/- ## C8 -/

/-- The C8 failing input: a host containing an interior tab character. -/
def tabHost : Str := ['a', '\t', 'b']

/-- C8 counterexample: `cleanHost` accepts a host containing a tab, which is
a whitespace character — it only rejects the space character `' '`. -/
theorem c8_counterexample :
    cleanHost tabHost = some tabHost ∧ '\t' ∈ tabHost ∧ '\t'.isWhitespace = true := by decide

/-- C8 amended: the cleanup step lowercases the (whitespace-trimmed) host,
strips a single trailing dot, fails if the result is empty, and fails if the
result contains a space character `' '` (U+0020); interior whitespace other
than the space character is not rejected. -/
theorem c8_cleanup (host : Str) :
    (∀ r, cleanHost host = some r →
      r = goTrimSuffixDot (goToLower (goTrimSpace host)) ∧ r ≠ [] ∧
        goContains r [' '] = false) ∧
    (cleanHost host = none ↔
      goTrimSuffixDot (goToLower (goTrimSpace host)) = [] ∨
      goContains (goTrimSuffixDot (goToLower (goTrimSpace host))) [' '] = true) := by
  constructor
  · intro r hr
    simp only [cleanHost] at hr
    by_cases h0 : goTrimSuffixDot (goToLower (goTrimSpace host)) = []
    · simp [h0] at hr
    · by_cases h1 : goContains (goTrimSuffixDot (goToLower (goTrimSpace host))) [' '] = true
      · simp [h0, h1] at hr
      · simp [h0, h1] at hr
        subst hr
        exact ⟨rfl, h0, by simpa using h1⟩
  · constructor
    · intro hn
      simp only [cleanHost] at hn
      by_cases h0 : goTrimSuffixDot (goToLower (goTrimSpace host)) = []
      · exact Or.inl h0
      · by_cases h1 : goContains (goTrimSuffixDot (goToLower (goTrimSpace host))) [' '] = true
        · exact Or.inr h1
        · simp [h0, h1] at hn
    · intro hor
      simp only [cleanHost]
      rcases hor with h0 | h1
      · simp [h0]
      · by_cases h0 : goTrimSuffixDot (goToLower (goTrimSpace host)) = [] <;> simp [h0, h1]

/-- Witness for C8 at host `"A.b."`: accepted and fully normalized. -/
theorem c8_cleanup_witness :
    cleanHost (r"A.b.".toList) = some (r"a.b".toList) ∧
    (r"a.b".toList = goTrimSuffixDot (goToLower (goTrimSpace (r"A.b.".toList))) ∧
      (r"a.b".toList : Str) ≠ [] ∧ goContains (r"a.b".toList) [' '] = false) :=
  ⟨by decide, (c8_cleanup (r"A.b.".toList)).1 (r"a.b".toList) (by decide)⟩

/- ## Pure (cache-free) view of the scanner -/

/-- The selectors a matching rule derives: the base selector plus one
attribute selector per non-empty attribute key. -/
def derivedSels (tag : Str) (d : Domain) : List Str :=
  baseSel tag :: d.attrs.filterMap (fun a => if a.key = [] then none else some (attrSel tag a.key))

/-- The attribute selectors alone. -/
def attrSels (tag : Str) (attrs : List DomainAttr) : List Str :=
  attrs.filterMap (fun a => if a.key = [] then none else some (attrSel tag a.key))

/-- The justification a matching rule records. -/
def whyOf (compile : Str → Option Pat) (host : Str) (d : Domain) : Why :=
  ⟨(matchRuleP compile host d).2, d.value⟩

/-- One pure scanner step for one (tag, rule) pair. -/
def stepP (compile : Str → Option Pat) (host : Str) (p : Str × Domain)
    (m : List (Str × Why)) : List (Str × Why) :=
  if (matchRuleP compile host p.2).1 then
    addAttrs p.1 (whyOf compile host p.2) p.2.attrs
      (insertIfAbsent m (baseSel p.1) (whyOf compile host p.2))
  else m

/-- Pure scanner over a flattened list of (tag, rule) pairs. -/
def scanPairsP (compile : Str → Option Pat) (host : Str) :
    List (Str × Domain) → List (Str × Why) → List (Str × Why)
  | [], m => m
  | p :: rest, m => scanPairsP compile host rest (stepP compile host p m)

/-- The catalog flattened to (tag, rule) pairs in iteration order. -/
def pairsOf (geo : GeoSiteList) : List (Str × Domain) :=
  geo.flatMap (fun s => s.domain.map (fun d => (s.countryCode, d)))

/-- The justification of the first matching rule, in catalog iteration
order, that derives the given selector (the spec's "first hit wins"). -/
def firstJustP (compile : Str → Option Pat) (host : Str) :
    List (Str × Domain) → Str → Option Why
  | [], _ => none
  | p :: rest, sel =>
      if (matchRuleP compile host p.2).1 = true ∧ sel ∈ derivedSels p.1 p.2 then
        some (whyOf compile host p.2)
      else firstJustP compile host rest sel

theorem scanPairsP_append (compile : Str → Option Pat) (host : Str) :
    ∀ (l1 l2 : List (Str × Domain)) (m : List (Str × Why)),
      scanPairsP compile host (l1 ++ l2) m = scanPairsP compile host l2 (scanPairsP compile host l1 m) := by
  intro l1
  induction l1 with
  | nil => intro l2 m; rfl
  | cons p rest ih =>
      intro l2 m
      simp only [List.cons_append, scanPairsP]
      exact ih l2 (stepP compile host p m)

theorem scanRules_eq (compile : Str → Option Pat) (host tag : Str) :
    ∀ (rules : List Domain) (m : List (Str × Why)) (c : Cache), Coherent compile c →
      (scanRules compile host tag rules (m, c)).1 =
        scanPairsP compile host (rules.map (fun d => (tag, d))) m ∧
      Coherent compile (scanRules compile host tag rules (m, c)).2 := by
  intro rules
  induction rules with
  | nil => intro m c hc; exact ⟨rfl, hc⟩
  | cons d rest ih =>
      intro m c hc
      have hfst := matchRule_fst compile host d c hc
      have hsnd := matchRule_snd compile host d c
      have hcoh := matchRule_coh compile host d c hc
      have hstep :
          (if (matchRule compile host d c).1 then
            addAttrs tag ⟨(matchRule compile host d c).2.1, d.value⟩ d.attrs
              (insertIfAbsent m (baseSel tag) ⟨(matchRule compile host d c).2.1, d.value⟩)
          else m) = stepP compile host (tag, d) m := by
        rw [hfst, hsnd]
        rfl
      simp only [scanRules, List.map_cons, scanPairsP]
      rw [hstep]
      exact ih (stepP compile host (tag, d) m) (matchRule compile host d c).2.2 hcoh

theorem scanSites_eq (compile : Str → Option Pat) (host : Str) :
    ∀ (geo : GeoSiteList) (m : List (Str × Why)) (c : Cache), Coherent compile c →
      (scanSites compile host geo (m, c)).1 = scanPairsP compile host (pairsOf geo) m ∧
      Coherent compile (scanSites compile host geo (m, c)).2 := by
  intro geo
  induction geo with
  | nil => intro m c hc; exact ⟨rfl, hc⟩
  | cons s rest ih =>
      intro m c hc
      obtain ⟨h1, h2⟩ := scanRules_eq compile host s.countryCode s.domain m c hc
      rcases hsc : scanRules compile host s.countryCode s.domain (m, c) with ⟨m2, c2⟩
      rw [hsc] at h1 h2
      simp only at h1 h2
      obtain ⟨h3, h4⟩ := ih m2 c2 h2
      constructor
      · simp only [scanSites, hsc]
        rw [h3, h1]
        have hp : pairsOf (s :: rest) =
            s.domain.map (fun d => (s.countryCode, d)) ++ pairsOf rest := by
          simp [pairsOf]
        rw [hp, scanPairsP_append]
      · simp only [scanSites, hsc]
        exact h4

/- ## Lookup behavior of the selector map operations -/

theorem alookup_eq_none (m : List (Str × Why)) (k : Str) :
    alookup m k = none ↔ k ∉ m.map Prod.fst := by
  induction m with
  | nil => simp [alookup]
  | cons p rest ih =>
      obtain ⟨k1, v1⟩ := p
      simp only [alookup, List.map_cons, List.mem_cons]
      by_cases hk : k = k1
      · simp [hk]
      · simp [hk, ih]

theorem alookup_insertIfAbsent (m : List (Str × Why)) (k : Str) (v : Why) (k2 : Str) :
    alookup (insertIfAbsent m k v) k2 =
      match alookup m k2 with
      | some w => some w
      | none => if k2 = k then some v else none := by
  unfold insertIfAbsent
  cases hmk : alookup m k with
  | some w =>
      cases hmk2 : alookup m k2 with
      | some w2 => simp [hmk2]
      | none =>
          by_cases hkk : k2 = k
          · subst hkk
            rw [hmk] at hmk2
            exact absurd hmk2 (by simp)
          · simp [hmk2, hkk]
  | none =>
      rw [alookup_append]
      cases hmk2 : alookup m k2 with
      | some w2 => simp
      | none => simp [alookup]

theorem alookup_addAttrs (tag : Str) (w : Why) :
    ∀ (attrs : List DomainAttr) (m : List (Str × Why)) (sel : Str),
      alookup (addAttrs tag w attrs m) sel =
        match alookup m sel with
        | some x => some x
        | none => if sel ∈ attrSels tag attrs then some w else none := by
  intro attrs
  induction attrs with
  | nil =>
      intro m sel
      cases hms : alookup m sel <;> simp [addAttrs, attrSels, hms]
  | cons a rest ih =>
      intro m sel
      by_cases hk : a.key = []
      · simp only [addAttrs, hk, if_pos rfl, ite_true]
        rw [ih]
        have : attrSels tag (a :: rest) = attrSels tag rest := by
          simp [attrSels, hk]
        rw [this]
      · simp only [addAttrs, if_neg hk, ite_false]
        rw [ih, alookup_insertIfAbsent]
        have hAs : attrSels tag (a :: rest) = attrSel tag a.key :: attrSels tag rest := by
          simp [attrSels, hk]
        rw [hAs]
        cases hms : alookup m sel with
        | some x => simp
        | none =>
            by_cases hsa : sel = attrSel tag a.key
            · simp [hsa]
            · by_cases hsr : sel ∈ attrSels tag rest <;> simp [hsa, hsr]

theorem alookup_stepP (compile : Str → Option Pat) (host : Str) (p : Str × Domain)
    (m : List (Str × Why)) (sel : Str) :
    alookup (stepP compile host p m) sel =
      match alookup m sel with
      | some x => some x
      | none =>
          if (matchRuleP compile host p.2).1 = true ∧ sel ∈ derivedSels p.1 p.2 then
            some (whyOf compile host p.2)
          else none := by
  unfold stepP
  by_cases hm : (matchRuleP compile host p.2).1 = true
  · simp only [hm, ite_true]
    rw [alookup_addAttrs, alookup_insertIfAbsent]
    have hD : derivedSels p.1 p.2 = baseSel p.1 :: attrSels p.1 p.2.attrs := by
      simp [derivedSels, attrSels]
    rw [hD]
    cases hms : alookup m sel with
    | some x => simp
    | none =>
        by_cases hsb : sel = baseSel p.1
        · simp [hsb, hm]
        · by_cases hsr : sel ∈ attrSels p.1 p.2.attrs <;> simp [hsb, hsr, hm]
  · have hm2 : (matchRuleP compile host p.2).1 = false := by
      revert hm
      cases (matchRuleP compile host p.2).1 <;> simp
    simp only [hm2, Bool.false_eq_true, ite_false]
    cases hms : alookup m sel <;> simp [hms, hm2]

theorem alookup_scanPairsP (compile : Str → Option Pat) (host : Str) :
    ∀ (ps : List (Str × Domain)) (m : List (Str × Why)) (sel : Str),
      alookup (scanPairsP compile host ps m) sel =
        match alookup m sel with
        | some x => some x
        | none => firstJustP compile host ps sel := by
  intro ps
  induction ps with
  | nil =>
      intro m sel
      cases hms : alookup m sel <;> simp [scanPairsP, firstJustP, hms]
  | cons p rest ih =>
      intro m sel
      simp only [scanPairsP, firstJustP]
      rw [ih, alookup_stepP]
      cases hms : alookup m sel with
      | some x => simp
      | none =>
          by_cases hcond : (matchRuleP compile host p.2).1 = true ∧ sel ∈ derivedSels p.1 p.2 <;>
            simp [hcond]

/- ## Distinct keys in the selector map -/

theorem keys_insertIfAbsent (m : List (Str × Why)) (k : Str) (v : Why)
    (h : (m.map Prod.fst).Nodup) : ((insertIfAbsent m k v).map Prod.fst).Nodup := by
  unfold insertIfAbsent
  cases hmk : alookup m k with
  | some w => exact h
  | none =>
      have hk : k ∉ m.map Prod.fst := (alookup_eq_none m k).mp hmk
      simp [List.nodup_append, h, hk]

theorem keys_addAttrs (tag : Str) (w : Why) :
    ∀ (attrs : List DomainAttr) (m : List (Str × Why)),
      (m.map Prod.fst).Nodup → ((addAttrs tag w attrs m).map Prod.fst).Nodup := by
  intro attrs
  induction attrs with
  | nil => intro m h; exact h
  | cons a rest ih =>
      intro m h
      simp only [addAttrs]
      by_cases hk : a.key = []
      · simpa [hk] using ih m h
      · simpa [hk] using ih _ (keys_insertIfAbsent m (attrSel tag a.key) w h)

theorem keys_scanPairsP (compile : Str → Option Pat) (host : Str) :
    ∀ (ps : List (Str × Domain)) (m : List (Str × Why)),
      (m.map Prod.fst).Nodup → ((scanPairsP compile host ps m).map Prod.fst).Nodup := by
  intro ps
  induction ps with
  | nil => intro m h; exact h
  | cons p rest ih =>
      intro m h
      simp only [scanPairsP]
      refine ih _ ?_
      unfold stepP
      by_cases hm : (matchRuleP compile host p.2).1 = true
      · simpa [hm] using
          keys_addAttrs p.1 (whyOf compile host p.2) p.2.attrs _
            (keys_insertIfAbsent m (baseSel p.1) (whyOf compile host p.2) h)
      · have hm2 : (matchRuleP compile host p.2).1 = false := by
          revert hm
          cases (matchRuleP compile host p.2).1 <;> simp
        simpa [hm2] using h

theorem alookup_of_mem_nodup :
    ∀ (m : List (Str × Why)) (k : Str) (v : Why),
      (m.map Prod.fst).Nodup → (k, v) ∈ m → alookup m k = some v := by
  intro m
  induction m with
  | nil => intro k v _ hm; simp at hm
  | cons p rest ih =>
      intro k v hnd hm
      obtain ⟨k1, v1⟩ := p
      simp only [List.map_cons, List.nodup_cons] at hnd
      rcases List.mem_cons.mp hm with hh | ht
      · injection hh with h1 h2
        subst h1
        subst h2
        simp [alookup]
      · by_cases hk : k = k1
        · subst hk
          exact absurd (List.mem_map.mpr ⟨(k, v), ht, rfl⟩) hnd.1
        · simp only [alookup, if_neg hk]
          exact ih k v hnd.2 ht

/- ## C4 -/

/-- The empty cache is coherent for any compiler. -/
theorem coherent_nil (compile : Str → Option Pat) : Coherent compile [] := by
  intro k e h
  simp [alookup] at h

/-- C4: every match record produced by the scanner carries, as its
justification (strategy name and rule value), exactly the justification of
the first matching rule in catalog iteration order that derived its
selector — later matching rules never overwrite it. -/
theorem c4_first_hit_justification (compile : Str → Option Pat) (host : Str)
    (geo : GeoSiteList) (bs : Str → Nat) (att : Str → Str → Nat) (c : Cache)
    (hc : Coherent compile c) :
    ∀ m ∈ (findMatchesForDomain compile host geo bs att c).1,
      firstJustP compile host (pairsOf geo) m.selector = some ⟨m.why, m.whyRuleVal⟩ := by
  intro m hm
  simp only [findMatchesForDomain] at hm
  obtain ⟨e, he, rfl⟩ := List.mem_map.mp hm
  obtain ⟨h1, _⟩ := scanSites_eq compile host geo [] c hc
  rw [h1] at he
  have hnd : ((scanPairsP compile host (pairsOf geo) []).map Prod.fst).Nodup :=
    keys_scanPairsP compile host (pairsOf geo) [] (by simp)
  obtain ⟨k, w⟩ := e
  have hlk : alookup (scanPairsP compile host (pairsOf geo) []) k = some w :=
    alookup_of_mem_nodup _ k w hnd he
  rw [alookup_scanPairsP] at hlk
  simp only [alookup] at hlk
  simpa [mkMatch] using hlk

/-- Concrete catalog for scanner witnesses: one category `"ads"` with a
domain rule and a plain rule. -/
def geoW : GeoSiteList :=
  [⟨r"ads".toList, [⟨2, r"ads.example.com".toList, []⟩, ⟨0, r"track".toList, []⟩]⟩]

/-- Concrete host for scanner witnesses. -/
def hostW : Str := r"sub.ads.example.com".toList

/-- The single match record `geoW` produces for `hostW`. -/
def matchW : Match :=
  ⟨r"geosite:ads".toList, r"ads".toList, [], 2, strDomain, r"ads.example.com".toList⟩

/-- Witness for C4 on the concrete catalog `geoW` and host `hostW`. -/
theorem c4_first_hit_justification_witness :
    matchW ∈ (findMatchesForDomain compile0 hostW geoW (computeSizes geoW).1
        (computeSizes geoW).2 []).1 ∧
    firstJustP compile0 hostW (pairsOf geoW) matchW.selector =
      some ⟨matchW.why, matchW.whyRuleVal⟩ :=
  ⟨by decide,
    c4_first_hit_justification compile0 hostW geoW (computeSizes geoW).1 (computeSizes geoW).2 []
      (coherent_nil compile0) matchW (by decide)⟩

/- ## C9 -/

/-- C9: for a fixed catalog and host, the scanner's match records are the
same for any two coherent starting caches (in particular for the cache
states before a first and before a repeated scan), and the cache after a
scan is again coherent — the cache affects performance, never output. -/
theorem c9_scan_deterministic (compile : Str → Option Pat) (host : Str) (geo : GeoSiteList)
    (bs : Str → Nat) (att : Str → Str → Nat) (c1 c2 : Cache)
    (h1 : Coherent compile c1) (h2 : Coherent compile c2) :
    (findMatchesForDomain compile host geo bs att c1).1 =
      (findMatchesForDomain compile host geo bs att c2).1 ∧
    Coherent compile (findMatchesForDomain compile host geo bs att c1).2 := by
  obtain ⟨ha1, ha2⟩ := scanSites_eq compile host geo [] c1 h1
  obtain ⟨hb1, _⟩ := scanSites_eq compile host geo [] c2 h2
  constructor
  · simp only [findMatchesForDomain]
    rw [ha1, hb1]
  · simp only [findMatchesForDomain]
    exact ha2

/-- Witness for C9: scanning `hostW` against `geoW` starting from the empty
cache and from the cache left by a first scan yields the same output. -/
theorem c9_scan_deterministic_witness :
    (findMatchesForDomain compile0 hostW geoW (computeSizes geoW).1 (computeSizes geoW).2 []).1 =
      (findMatchesForDomain compile0 hostW geoW (computeSizes geoW).1 (computeSizes geoW).2
        (findMatchesForDomain compile0 hostW geoW (computeSizes geoW).1
          (computeSizes geoW).2 []).2).1 ∧
    Coherent compile0
      (findMatchesForDomain compile0 hostW geoW (computeSizes geoW).1
        (computeSizes geoW).2 []).2 := by
  have hfirst := c9_scan_deterministic compile0 hostW geoW (computeSizes geoW).1
    (computeSizes geoW).2 [] [] (coherent_nil compile0) (coherent_nil compile0)
  have hsecond := c9_scan_deterministic compile0 hostW geoW (computeSizes geoW).1
    (computeSizes geoW).2 []
    (findMatchesForDomain compile0 hostW geoW (computeSizes geoW).1
      (computeSizes geoW).2 []).2
    (coherent_nil compile0) hfirst.2
  exact ⟨hsecond.1, hfirst.2⟩

/- ## Catalog Index lemmas -/

theorem attrLoop_other (tag : Str) :
    ∀ (attrs : List DomainAttr) (f : Str → Str → Nat) (t k : Str), t ≠ tag →
      attrLoop tag attrs f t k = f t k := by
  intro attrs
  induction attrs with
  | nil => intro f t k _; rfl
  | cons a rest ih =>
      intro f t k ht
      simp only [attrLoop]
      rw [ih _ t k ht]
      by_cases hk : a.key = []
      · simp [hk]
      · simp [hk, bumpAttr, ht]

theorem siteAttrs_other (tag : Str) :
    ∀ (ds : List Domain) (f : Str → Str → Nat) (t k : Str), t ≠ tag →
      siteAttrs tag ds f t k = f t k := by
  intro ds
  induction ds with
  | nil => intro f t k _; rfl
  | cons d rest ih =>
      intro f t k ht
      simp only [siteAttrs]
      rw [ih _ t k ht, attrLoop_other tag d.attrs f t k ht]

theorem sizesLoop_base_notmem :
    ∀ (sites : GeoSiteList) (b : Str → Nat) (a : Str → Str → Nat) (t : Str),
      t ∉ sites.map GeoSite.countryCode → (sizesLoop sites (b, a)).1 t = b t := by
  intro sites
  induction sites with
  | nil => intro b a t _; rfl
  | cons s rest ih =>
      intro b a t ht
      simp only [List.map_cons, List.mem_cons] at ht
      push_neg at ht
      simp only [sizesLoop]
      rw [ih _ _ t ht.2]
      simp [ht.1]

theorem sizesLoop_attr_notmem :
    ∀ (sites : GeoSiteList) (b : Str → Nat) (a : Str → Str → Nat) (t k : Str),
      t ∉ sites.map GeoSite.countryCode → (sizesLoop sites (b, a)).2 t k = a t k := by
  intro sites
  induction sites with
  | nil => intro b a t k _; rfl
  | cons s rest ih =>
      intro b a t k ht
      simp only [List.map_cons, List.mem_cons] at ht
      push_neg at ht
      simp only [sizesLoop]
      rw [ih _ _ t k ht.2, siteAttrs_other s.countryCode s.domain a t k ht.1]

theorem sizesLoop_base_mem :
    ∀ (sites : GeoSiteList) (b : Str → Nat) (a : Str → Str → Nat) (s : GeoSite),
      (sites.map GeoSite.countryCode).Nodup → s ∈ sites →
      (sizesLoop sites (b, a)).1 s.countryCode = s.domain.length := by
  intro sites
  induction sites with
  | nil => intro b a s _ hs; simp at hs
  | cons x rest ih =>
      intro b a s hnd hs
      simp only [List.map_cons, List.nodup_cons] at hnd
      rcases List.mem_cons.mp hs with rfl | ht
      · simp only [sizesLoop]
        rw [sizesLoop_base_notmem rest _ _ s.countryCode hnd.1]
        simp
      · exact ih _ _ s hnd.2 ht

theorem computeSizes_base_mem (geo : GeoSiteList) (s : GeoSite)
    (hnd : (geo.map GeoSite.countryCode).Nodup) (hs : s ∈ geo) :
    (computeSizes geo).1 s.countryCode = s.domain.length :=
  sizesLoop_base_mem geo _ _ s hnd hs

theorem computeSizes_base_notmem (geo : GeoSiteList) (t : Str)
    (h : t ∉ geo.map GeoSite.countryCode) : (computeSizes geo).1 t = 0 :=
  sizesLoop_base_notmem geo _ _ t h

theorem computeSizes_attr_notmem (geo : GeoSiteList) (t k : Str)
    (h : t ∉ geo.map GeoSite.countryCode) : (computeSizes geo).2 t k = 0 :=
  sizesLoop_attr_notmem geo _ _ t k h

/-- The number of rules under a tag in the catalog (summed over the
categories carrying that tag). -/
def tagRuleCount (geo : GeoSiteList) (tag : Str) : Nat :=
  ((geo.filter (fun s => decide (s.countryCode = tag))).map (fun s => s.domain.length)).sum

theorem tagRuleCount_mem :
    ∀ (geo : GeoSiteList) (s : GeoSite), (geo.map GeoSite.countryCode).Nodup → s ∈ geo →
      tagRuleCount geo s.countryCode = s.domain.length := by
  intro geo
  induction geo with
  | nil => intro s _ hs; simp at hs
  | cons x rest ih =>
      intro s hnd hs
      simp only [List.map_cons, List.nodup_cons] at hnd
      rcases List.mem_cons.mp hs with rfl | ht
      · have hrest : rest.filter (fun y => decide (y.countryCode = s.countryCode)) = [] := by
          rw [List.filter_eq_nil_iff]
          intro y hy hdec
          exact hnd.1 (by
            have : y.countryCode = s.countryCode := of_decide_eq_true hdec
            exact this ▸ List.mem_map.mpr ⟨y, hy, rfl⟩)
        simp [tagRuleCount, hrest]
      · have hx : decide (x.countryCode = s.countryCode) = false := by
          rw [decide_eq_false_iff_not]
          intro hxe
          exact hnd.1 (hxe ▸ List.mem_map.mpr ⟨s, ht, rfl⟩)
        simp only [tagRuleCount, List.filter_cons, hx]
        exact ih s hnd.2 ht

/- ## Origin of scanner selectors -/

theorem firstJustP_mem (compile : Str → Option Pat) (host : Str) :
    ∀ (ps : List (Str × Domain)) (sel : Str) (w : Why),
      firstJustP compile host ps sel = some w →
      ∃ p ∈ ps, sel ∈ derivedSels p.1 p.2 := by
  intro ps
  induction ps with
  | nil => intro sel w h; simp [firstJustP] at h
  | cons p rest ih =>
      intro sel w h
      simp only [firstJustP] at h
      by_cases hcond : (matchRuleP compile host p.2).1 = true ∧ sel ∈ derivedSels p.1 p.2
      · exact ⟨p, List.mem_cons_self _ _, hcond.2⟩
      · rw [if_neg hcond] at h
        obtain ⟨q, hq, hsel⟩ := ih sel w h
        exact ⟨q, List.mem_cons_of_mem _ hq, hsel⟩

theorem pairsOf_mem (geo : GeoSiteList) (p : Str × Domain) (h : p ∈ pairsOf geo) :
    ∃ s ∈ geo, p.1 = s.countryCode ∧ p.2 ∈ s.domain := by
  simp only [pairsOf, List.mem_flatMap, List.mem_map] at h
  obtain ⟨s, hs, d, hd, hp⟩ := h
  exact ⟨s, hs, by rw [← hp], by rw [← hp]; exact hd⟩

theorem derivedSels_cases (tag : Str) (d : Domain) (sel : Str)
    (h : sel ∈ derivedSels tag d) :
    sel = baseSel tag ∨ ∃ a ∈ d.attrs, a.key ≠ [] ∧ sel = attrSel tag a.key := by
  simp only [derivedSels, List.mem_cons, List.mem_filterMap] at h
  rcases h with h | ⟨a, ha, hsel⟩
  · exact Or.inl h
  · by_cases hk : a.key = []
    · simp [hk] at hsel
    · simp only [hk, ite_false] at hsel
      exact Or.inr ⟨a, ha, hk, (Option.some.inj hsel).symm⟩

/- ## C6 -/

/-- The C6 failing input: a category whose tag contains `'@'`. -/
def tagC6 : Str := ['a', '@', 'b']

/-- Catalog for the C6 counterexample: tag `"a@b"`, one plain rule `"x"`. -/
def geoC6 : GeoSiteList := [⟨tagC6, [⟨0, r"x".toList, []⟩]⟩]

/-- C6 counterexample: with tag `"a@b"`, the only emitted selector is the
base selector for that tag, but its reported group size is 0 (the selector
re-parses as tag `"a"` with attribute `"b"`), while the catalog holds 1 rule
under the tag. -/
theorem c6_counterexample :
    ((findMatchesForDomain compile0 (r"x".toList) geoC6 (computeSizes geoC6).1
        (computeSizes geoC6).2 []).1.map (fun m => (m.selector, m.groupSize))) =
      [(baseSel tagC6, 0)] ∧
    tagRuleCount geoC6 tagC6 = 1 := by decide

/-- Auxiliary: `attrLoop` leaves the counter at key `k` untouched when no
attribute in the list carries key `k`. -/
theorem attrLoop_no_key (tag : Str) :
    ∀ (attrs : List DomainAttr) (f : Str → Str → Nat) (t k : Str),
      (∀ a ∈ attrs, a.key ≠ k) → attrLoop tag attrs f t k = f t k := by
  intro attrs
  induction attrs with
  | nil => intro f t k _; rfl
  | cons a rest ih =>
      intro f t k h
      simp only [attrLoop]
      rw [ih _ t k (fun x hx => h x (List.mem_cons_of_mem _ hx))]
      by_cases hk : a.key = []
      · simp [hk]
      · have hne : k ≠ a.key := fun he => h a (List.mem_cons_self _ _) he.symm
        simp [hk, bumpAttr, hne]

/-- Auxiliary: `siteAttrs` leaves the counter at key `k` untouched when no
rule in the list carries an attribute with key `k`. -/
theorem siteAttrs_no_key (tag : Str) :
    ∀ (ds : List Domain) (f : Str → Str → Nat) (t k : Str),
      (∀ d ∈ ds, ∀ a ∈ d.attrs, a.key ≠ k) → siteAttrs tag ds f t k = f t k := by
  intro ds
  induction ds with
  | nil => intro f t k _; rfl
  | cons d rest ih =>
      intro f t k h
      simp only [siteAttrs]
      rw [ih _ t k (fun x hx => h x (List.mem_cons_of_mem _ hx)),
        attrLoop_no_key tag d.attrs f t k (h d (List.mem_cons_self _ _))]

theorem sizesLoop_attr_absent :
    ∀ (sites : GeoSiteList) (b : Str → Nat) (a : Str → Str → Nat) (t k : Str),
      (∀ s ∈ sites, s.countryCode = t → ∀ d ∈ s.domain, ∀ a2 ∈ d.attrs, a2.key ≠ k) →
      (sizesLoop sites (b, a)).2 t k = a t k := by
  intro sites
  induction sites with
  | nil => intro b a t k _; rfl
  | cons s rest ih =>
      intro b a t k h
      simp only [sizesLoop]
      rw [ih _ _ t k (fun x hx => h x (List.mem_cons_of_mem _ hx))]
      by_cases hst : s.countryCode = t
      · exact siteAttrs_no_key s.countryCode s.domain a t k (h s (List.mem_cons_self _ _) hst)
      · exact siteAttrs_other s.countryCode s.domain a t k (fun he => hst he.symm)

/-- An attribute key occurring on no rule under tag `t` reads as 0 in the
attribute index, even when the tag itself is present. -/
theorem computeSizes_attr_absent (geo : GeoSiteList) (t k : Str)
    (h : ∀ s ∈ geo, s.countryCode = t → ∀ d ∈ s.domain, ∀ a ∈ d.attrs, a.key ≠ k) :
    (computeSizes geo).2 t k = 0 :=
  sizesLoop_attr_absent geo _ _ t k h

/-- C6 amended: when category tags contain no `'@'` (the condition the
counterexample forces; tags are additionally assumed unique per the spec's
"tag (unique identifier)" data model), every base-selector match record
reports as group size exactly the number of rules under its tag in the
catalog, regardless of how many matched. Unconditionally, a selector whose
parsed tag is absent from the Catalog Index — or whose attribute key occurs
on no rule under its (present) tag — reports size 0 rather than failing. -/
theorem c6_group_size (compile : Str → Option Pat) (host : Str) (geo : GeoSiteList)
    (c : Cache) :
    (Coherent compile c → (geo.map GeoSite.countryCode).Nodup →
      (∀ s ∈ geo, '@' ∉ s.countryCode) →
      ∀ m ∈ (findMatchesForDomain compile host geo (computeSizes geo).1
          (computeSizes geo).2 c).1,
        m.attr = [] → m.groupSize = tagRuleCount geo m.tag) ∧
    (∀ sel, (parseSelector sel).1 ∉ geo.map GeoSite.countryCode →
      selectorSize (computeSizes geo).1 (computeSizes geo).2 sel = 0) ∧
    (∀ sel, (parseSelector sel).2 ≠ [] →
      (∀ s ∈ geo, s.countryCode = (parseSelector sel).1 →
        ∀ d ∈ s.domain, ∀ a ∈ d.attrs, a.key ≠ (parseSelector sel).2) →
      selectorSize (computeSizes geo).1 (computeSizes geo).2 sel = 0) := by
  refine ⟨?_, ?_, ?_⟩
  · intro hc hnd hat m hm hattr
    simp only [findMatchesForDomain] at hm
    obtain ⟨e, he, rfl⟩ := List.mem_map.mp hm
    obtain ⟨h1, _⟩ := scanSites_eq compile host geo [] c hc
    rw [h1] at he
    have hnd2 : ((scanPairsP compile host (pairsOf geo) []).map Prod.fst).Nodup :=
      keys_scanPairsP compile host (pairsOf geo) [] (by simp)
    obtain ⟨k, w⟩ := e
    have hlk : alookup (scanPairsP compile host (pairsOf geo) []) k = some w :=
      alookup_of_mem_nodup _ k w hnd2 he
    rw [alookup_scanPairsP] at hlk
    simp only [alookup] at hlk
    obtain ⟨p, hp, hksel⟩ := firstJustP_mem compile host (pairsOf geo) k w hlk
    obtain ⟨s, hs, hptag, _⟩ := pairsOf_mem geo p hp
    rcases derivedSels_cases p.1 p.2 k hksel with hbase | ⟨a, _, hk, hattrsel⟩
    · subst hbase
      rw [hptag] at *
      have hparse := parseSelector_base s.countryCode (hat s hs)
      simp only [mkMatch, selectorSize, hparse]
      simp only [ite_true]
      rw [computeSizes_base_mem geo s hnd hs, tagRuleCount_mem geo s hnd hs]
    · subst hattrsel
      rw [hptag] at *
      have hparse := parseSelector_attr s.countryCode a.key (hat s hs)
      simp only [mkMatch, hparse] at hattr
      exact absurd hattr hk
  · intro sel hmem
    unfold selectorSize
    by_cases hattr : (parseSelector sel).2 = []
    · simp only [hattr, ite_true]
      exact computeSizes_base_notmem geo _ hmem
    · simp only [hattr, ite_false]
      exact computeSizes_attr_notmem geo _ _ hmem
  · intro sel hattr habs
    unfold selectorSize
    simp only [hattr, ite_false]
    exact computeSizes_attr_absent geo _ _ habs

/-- Witness for C6 on the concrete catalog `geoW` and host `hostW`: the base
selector `geosite:ads` reports size 2, the rule count under `ads`; and the
attribute selector `geosite:ads@zz`, whose key occurs on no rule under the
present tag `ads`, reports size 0. -/
theorem c6_group_size_witness :
    ((geoW.map GeoSite.countryCode).Nodup ∧ (∀ s ∈ geoW, '@' ∉ s.countryCode) ∧
      matchW ∈ (findMatchesForDomain compile0 hostW geoW (computeSizes geoW).1
        (computeSizes geoW).2 []).1 ∧ matchW.attr = [] ∧
      (parseSelector (attrSel (r"ads".toList) (r"zz".toList))).2 ≠ []) ∧
    matchW.groupSize = tagRuleCount geoW matchW.tag ∧
    selectorSize (computeSizes geoW).1 (computeSizes geoW).2
      (attrSel (r"ads".toList) (r"zz".toList)) = 0 :=
  ⟨⟨by decide, by decide, by decide, by decide, by decide⟩,
    (c6_group_size compile0 hostW geoW []).1 (coherent_nil compile0) (by decide) (by decide)
      matchW (by decide) (by decide),
    (c6_group_size compile0 hostW geoW []).2.2 (attrSel (r"ads".toList) (r"zz".toList))
      (by decide) (by decide)⟩

/- ## Result Ranker: the sort comparator from `main` (lines 73-78) -/

/-- Go string `<`: lexicographic comparison. -/
def lexLt : Str → Str → Bool
  | [], [] => false
  | [], _ :: _ => true
  | _ :: _, [] => false
  | a :: as2, b :: bs2 => if a < b then true else if b < a then false else lexLt as2 bs2

/-- The `less` closure passed to `sort.Slice` (lines 73-78): ascending group
size, ties broken by ascending selector. -/
def matchLess (a b : Match) : Bool :=
  if a.groupSize ≠ b.groupSize then decide (a.groupSize < b.groupSize)
  else lexLt a.selector b.selector

/-- The non-strict order induced by `matchLess` (what sortedness of
`sort.Slice` output means). -/
def goLe (a b : Match) : Bool := !(matchLess b a)

/-- Insertion step of the ranking sort. -/
def insertRanked (x : Match) : List Match → List Match
  | [] => [x]
  | y :: t => if goLe x y then x :: y :: t else y :: insertRanked x t

/-- The ranked output: `matches` sorted by the `sort.Slice` comparator.
`sort.Slice` is an unspecified (unstable) sort; any sort agreeing with the
comparator is a faithful model because the claim's distinct-selector
hypothesis makes the sorted result unique. -/
def rankMatches : List Match → List Match
  | [] => []
  | x :: t => insertRanked x (rankMatches t)

/-- The ranking order as a relation: ascending group size, ties broken by
ascending lexicographic selector. -/
def rankLe (a b : Match) : Prop :=
  a.groupSize < b.groupSize ∨
    (a.groupSize = b.groupSize ∧ (lexLt a.selector b.selector = true ∨ a.selector = b.selector))

theorem lexLt_trans : ∀ a b c : Str, lexLt a b = true → lexLt b c = true → lexLt a c = true := by
  intro a
  induction a with
  | nil =>
      intro b c hab hbc
      cases b with
      | nil => simp [lexLt] at hab
      | cons y ys =>
          cases c with
          | nil => simp [lexLt] at hbc
          | cons z zs => simp [lexLt]
  | cons x xs ih =>
      intro b c hab hbc
      cases b with
      | nil => simp [lexLt] at hab
      | cons y ys =>
          cases c with
          | nil => simp [lexLt] at hbc
          | cons z zs =>
              simp only [lexLt] at hab hbc ⊢
              by_cases hxy : x < y
              · by_cases hyz : y < z
                · simp [lt_trans hxy hyz]
                · by_cases hzy : z < y
                  · simp [hyz, hzy] at hbc
                  · have heq : y = z := le_antisymm (not_lt.mp hzy) (not_lt.mp hyz)
                    subst heq
                    simp [hxy]
              · by_cases hyx : y < x
                · simp [hxy, hyx] at hab
                · have heq : x = y := le_antisymm (not_lt.mp hyx) (not_lt.mp hxy)
                  subst heq
                  simp only [lt_irrefl, ite_false] at hab
                  by_cases hxz : x < z
                  · simp [hxz]
                  · by_cases hzx : z < x
                    · simp [hxz, hzx] at hbc
                    · have heq2 : x = z := le_antisymm (not_lt.mp hzx) (not_lt.mp hxz)
                      subst heq2
                      simp only [lt_irrefl, ite_false] at hbc ⊢
                      exact ih ys zs hab hbc

theorem lexLt_asymm : ∀ a b : Str, lexLt a b = true → lexLt b a = false := by
  intro a
  induction a with
  | nil =>
      intro b hab
      cases b with
      | nil => simp [lexLt] at hab
      | cons y ys => simp [lexLt]
  | cons x xs ih =>
      intro b hab
      cases b with
      | nil => simp [lexLt] at hab
      | cons y ys =>
          simp only [lexLt] at hab ⊢
          by_cases hxy : x < y
          · simp [hxy, lt_asymm hxy]
          · by_cases hyx : y < x
            · simp [hxy, hyx] at hab
            · have heq : x = y := le_antisymm (not_lt.mp hyx) (not_lt.mp hxy)
              subst heq
              simp only [lt_irrefl, ite_false] at hab ⊢
              exact ih ys hab

theorem lexLt_conn : ∀ a b : Str, lexLt a b = false → lexLt b a = false → a = b := by
  intro a
  induction a with
  | nil =>
      intro b h1 _
      cases b with
      | nil => rfl
      | cons y ys => simp [lexLt] at h1
  | cons x xs ih =>
      intro b h1 h2
      cases b with
      | nil => simp [lexLt] at h2
      | cons y ys =>
          simp only [lexLt] at h1 h2
          by_cases hxy : x < y
          · simp [hxy] at h1
          · by_cases hyx : y < x
            · simp [hyx, hxy] at h2
            · have heq : x = y := le_antisymm (not_lt.mp hyx) (not_lt.mp hxy)
              subst heq
              simp only [lt_irrefl, ite_false] at h1 h2
              rw [ih ys h1 h2]

theorem lexLt_irrefl (s : Str) : lexLt s s = false := by
  cases h : lexLt s s
  · rfl
  · have := lexLt_asymm s s h
    rw [h] at this
    exact this

theorem lexLt_not_iff (s t : Str) : lexLt s t = false ↔ lexLt t s = true ∨ s = t := by
  constructor
  · intro h
    by_cases h2 : lexLt t s = true
    · exact Or.inl h2
    · refine Or.inr (lexLt_conn s t h ?_)
      revert h2
      cases lexLt t s <;> simp
  · rintro (h | rfl)
    · exact lexLt_asymm t s h
    · exact lexLt_irrefl s

theorem goLe_iff (a b : Match) : goLe a b = true ↔ rankLe a b := by
  unfold goLe matchLess rankLe
  by_cases hsz : b.groupSize = a.groupSize
  · simp only [hsz, ne_eq, not_true_eq_false, ite_false, Bool.not_eq_true',
      lexLt_not_iff b.selector a.selector, lt_irrefl, false_or, true_and]
    constructor
    · rintro (h | h)
      exacts [Or.inl h, Or.inr h.symm]
    · rintro (h | h)
      exacts [Or.inl h, Or.inr h.symm]
  · have hsz2 : a.groupSize ≠ b.groupSize := fun h => hsz h.symm
    simp only [hsz, ne_eq, not_false_eq_true, ite_true, Bool.not_eq_true',
      decide_eq_false_iff_not, not_lt]
    constructor
    · intro h
      exact Or.inl (lt_of_le_of_ne h hsz2)
    · rintro (h | ⟨heq, _⟩)
      · exact le_of_lt h
      · exact absurd heq hsz2

theorem rankLe_total (a b : Match) : rankLe a b ∨ rankLe b a := by
  unfold rankLe
  rcases Nat.lt_trichotomy a.groupSize b.groupSize with h | h | h
  · exact Or.inl (Or.inl h)
  · by_cases hl : lexLt a.selector b.selector = true
    · exact Or.inl (Or.inr ⟨h, Or.inl hl⟩)
    · by_cases hl2 : lexLt b.selector a.selector = true
      · exact Or.inr (Or.inr ⟨h.symm, Or.inl hl2⟩)
      · have e1 : lexLt a.selector b.selector = false := by
          revert hl
          cases lexLt a.selector b.selector <;> simp
        have e2 : lexLt b.selector a.selector = false := by
          revert hl2
          cases lexLt b.selector a.selector <;> simp
        exact Or.inl (Or.inr ⟨h, Or.inr (lexLt_conn _ _ e1 e2)⟩)
  · exact Or.inr (Or.inl h)

theorem rankLe_trans (a b c : Match) (h1 : rankLe a b) (h2 : rankLe b c) : rankLe a c := by
  unfold rankLe at *
  rcases h1 with h1 | ⟨h1e, h1s⟩
  · rcases h2 with h2 | ⟨h2e, _⟩
    · exact Or.inl (lt_trans h1 h2)
    · exact Or.inl (h2e ▸ h1)
  · rcases h2 with h2 | ⟨h2e, h2s⟩
    · exact Or.inl (h1e ▸ h2)
    · refine Or.inr ⟨h1e.trans h2e, ?_⟩
      rcases h1s with h1s | h1s
      · rcases h2s with h2s | h2s
        · exact Or.inl (lexLt_trans _ _ _ h1s h2s)
        · exact Or.inl (h2s ▸ h1s)
      · rcases h2s with h2s | h2s
        · exact Or.inl (h1s ▸ h2s)
        · exact Or.inr (h1s.trans h2s)

theorem rankLe_antisymm_sel (a b : Match) (h1 : rankLe a b) (h2 : rankLe b a) :
    a.selector = b.selector := by
  unfold rankLe at *
  rcases h1 with h1 | ⟨h1e, h1s⟩
  · rcases h2 with h2 | ⟨h2e, _⟩
    · exact absurd (lt_trans h1 h2) (lt_irrefl _)
    · exact absurd (h2e ▸ h1) (lt_irrefl _)
  · rcases h2 with h2 | ⟨_, h2s⟩
    · exact absurd (h1e ▸ h2) (lt_irrefl _)
    · rcases h1s with h1s | h1s
      · rcases h2s with h2s | h2s
        · have := lexLt_asymm _ _ h1s
          rw [h2s] at this
          exact absurd this (by simp)
        · exact h2s.symm
      · exact h1s

instance : DecidableRel rankLe := fun a b => by
  unfold rankLe
  infer_instance

theorem mem_insertRanked (x y : Match) :
    ∀ l : List Match, y ∈ insertRanked x l ↔ y = x ∨ y ∈ l := by
  intro l
  induction l with
  | nil => simp [insertRanked]
  | cons z t ih =>
      simp only [insertRanked]
      by_cases hle : goLe x z = true
      · rw [if_pos hle]
        simp [List.mem_cons]
      · rw [if_neg hle]
        simp only [List.mem_cons, ih]
        tauto

theorem insertRanked_perm (x : Match) :
    ∀ l : List Match, (insertRanked x l).Perm (x :: l) := by
  intro l
  induction l with
  | nil => simp [insertRanked]
  | cons z t ih =>
      simp only [insertRanked]
      by_cases hle : goLe x z = true
      · rw [if_pos hle]
      · rw [if_neg hle]
        exact (ih.cons z).trans (List.Perm.swap x z t)

theorem rankMatches_perm : ∀ ms : List Match, (rankMatches ms).Perm ms := by
  intro ms
  induction ms with
  | nil => simp [rankMatches]
  | cons x t ih =>
      simp only [rankMatches]
      exact (insertRanked_perm x (rankMatches t)).trans (ih.cons x)

theorem insertRanked_sorted (x : Match) :
    ∀ l : List Match, l.Pairwise rankLe → (insertRanked x l).Pairwise rankLe := by
  intro l
  induction l with
  | nil => intro _; simp [insertRanked, List.pairwise_cons]
  | cons z t ih =>
      intro h
      rw [List.pairwise_cons] at h
      obtain ⟨hz, ht⟩ := h
      simp only [insertRanked]
      by_cases hle : goLe x z = true
      · have hxz : rankLe x z := (goLe_iff x z).mp hle
        rw [if_pos hle, List.pairwise_cons]
        refine ⟨?_, List.pairwise_cons.mpr ⟨hz, ht⟩⟩
        intro w hw
        rcases List.mem_cons.mp hw with rfl | hwt
        · exact hxz
        · exact rankLe_trans x z w hxz (hz w hwt)
      · have hzx : rankLe z x := by
          rcases rankLe_total x z with hxz | hzx
          · exact absurd ((goLe_iff x z).mpr hxz) hle
          · exact hzx
        rw [if_neg hle, List.pairwise_cons]
        refine ⟨?_, ih ht⟩
        intro w hw
        rcases (mem_insertRanked x w t).mp hw with rfl | hwt
        · exact hzx
        · exact hz w hwt

theorem rankMatches_sorted : ∀ ms : List Match, (rankMatches ms).Pairwise rankLe := by
  intro ms
  induction ms with
  | nil => simp [rankMatches]
  | cons x t ih =>
      simp only [rankMatches]
      exact insertRanked_sorted x (rankMatches t) ih

theorem sorted_perm_unique :
    ∀ l1 l2 : List Match, l1.Pairwise rankLe → l2.Pairwise rankLe → l1.Perm l2 →
      (l1.map Match.selector).Nodup → l1 = l2 := by
  intro l1
  induction l1 with
  | nil =>
      intro l2 _ _ hp _
      exact hp.nil_eq
  | cons a t1 ih =>
      intro l2 h1 h2 hp hnd
      cases l2 with
      | nil => exact absurd hp.symm.nil_eq (by simp)
      | cons b t2 =>
          rw [List.pairwise_cons] at h1 h2
          simp only [List.map_cons, List.nodup_cons] at hnd
          by_cases hab : a = b
          · subst hab
            rw [ih t2 h1.2 h2.2 hp.cons_inv hnd.2]
          · have hamem : a ∈ t2 := by
              rcases List.mem_cons.mp (hp.mem_iff.mp (List.mem_cons_self a t1)) with h | h
              · exact absurd h hab
              · exact h
            have hbmem : b ∈ t1 := by
              rcases List.mem_cons.mp (hp.symm.mem_iff.mp (List.mem_cons_self b t2)) with h | h
              · exact absurd h.symm hab
              · exact h
            have hsel : a.selector = b.selector :=
              rankLe_antisymm_sel a b (h1.1 b hbmem) (h2.1 a hamem)
            exact absurd (hsel ▸ List.mem_map.mpr ⟨b, hbmem, rfl⟩) hnd.1

/- ## C5 -/

/-- C5: for match records with pairwise-distinct selectors, the ranked
output is a permutation of the input, is sorted ascending by group size with
ties broken by ascending lexicographic selector order, and is the unique
such sorted permutation. -/
theorem c5_ranking (ms : List Match) (hnd : (ms.map Match.selector).Nodup) :
    (rankMatches ms).Perm ms ∧ (rankMatches ms).Pairwise rankLe ∧
    ∀ l : List Match, l.Perm ms → l.Pairwise rankLe → l = rankMatches ms := by
  refine ⟨rankMatches_perm ms, rankMatches_sorted ms, ?_⟩
  intro l hp hs
  exact sorted_perm_unique l (rankMatches ms) hs (rankMatches_sorted ms)
    (hp.trans (rankMatches_perm ms).symm)
    (((hp.map Match.selector).nodup_iff).mpr hnd)

/-- Two unsorted match records used for the C5 witness. -/
def matchA : Match := ⟨r"geosite:bb".toList, r"bb".toList, [], 2, strPlain, r"b".toList⟩

/-- Second match record for the C5 witness (smaller group). -/
def matchB : Match := ⟨r"geosite:aa".toList, r"aa".toList, [], 1, strPlain, r"a".toList⟩

/-- Witness for C5: ranking `[matchA, matchB]` puts the smaller group first,
and the sorted permutation is unique. -/
theorem c5_ranking_witness :
    (([matchA, matchB].map Match.selector).Nodup) ∧
    (rankMatches [matchA, matchB]).Perm [matchA, matchB] ∧
    (rankMatches [matchA, matchB]).Pairwise rankLe ∧
    [matchB, matchA] = rankMatches [matchA, matchB] :=
  ⟨by decide,
    (c5_ranking [matchA, matchB] (by decide)).1,
    (c5_ranking [matchA, matchB] (by decide)).2.1,
    (c5_ranking [matchA, matchB] (by decide)).2.2 [matchB, matchA] (by decide)
      (by decide)⟩
